import Mathlib

/-!
Verification development for the fast-pseudoprimes pipeline: a shallow
embedding of the modular-arithmetic core (`modulus.rs`), the Gray-code
subset-product enumerator (`gray_prod_iter.rs`), the concurrent bit set and
Bloom filter (`bitset/stable.rs`, `bloomfilter/conc_bloom.rs`), the phase
orchestrators' range assignment (`bloomfilter/mod.rs`) and the
primality-check adapter (`magic_numbers.rs`), together with proofs about
those definitions.

Machine integers are embedded as `ℕ` (with explicit `% 2^w` wherever the
source arithmetic can wrap, and `ℤ` for the one signed `i128` value);
fallible operations (assertion failures, out-of-bounds indexing) are
embedded as `Option`.
-/

namespace FastPseudoprimes

/-! ## magic_numbers.rs / modulus.rs : constants -/

/-- The fixed 64-bit composite modulus `M` (magic_numbers.rs). -/
def M : ℕ := 11908862398227544750

/-- The reducer's reciprocal constant (modulus.rs, commented `2^124/M`;
its high 64-bit limb is `⌊2^124/M⌋`, and as a 128-bit value it is
`⌈2^188/M⌉`). -/
def M_RECIP : ℕ := 0x18c8acd8d948f58b6a0fb2d6e1aaecf8

/-- `LO_64` constant from modulus.rs: `(1u128 << 64) - 1`. -/
def LO_64 : ℕ := 2 ^ 64 - 1

lemma M_pos : 0 < M := by norm_num [M]

instance : NeZero M := ⟨by norm_num [M]⟩

instance : Fact (1 < M) := ⟨by norm_num [M]⟩

/-! ## modulus.rs : the fixed-M reducer `reduce_m` and `OptiM` -/

/-- Value of a `u128` bit pattern when reinterpreted as an `i128`
(the source casts `v as i128`). -/
def i128 (x : ℕ) : ℤ := if x < 2 ^ 127 then (x : ℤ) else (x : ℤ) - 2 ^ 128

/-! The let-bindings of `reduce_m` (modulus.rs) are embedded as named
definitions `rm_*`, one per source binding, so they can be reasoned about
separately. -/

/-- `let v_lo = v & LO_64;` -/
def rm_v_lo (v : ℕ) : ℕ := v &&& LO_64

/-- `let v_hi = v >> 64;` -/
def rm_v_hi (v : ℕ) : ℕ := v >>> 64

/-- `let m_lo = M_RECIP & LO_64;` -/
def rm_m_lo : ℕ := M_RECIP &&& LO_64

/-- `let m_hi = M_RECIP >> 64;` -/
def rm_m_hi : ℕ := M_RECIP >>> 64

/-- The exact sum `v_hi * m_lo + v_lo * m_hi` whose `overflowing_add`
produces `(mid, overflow)`: `mid = rm_sum % 2^128`, `overflow = 2^128 ≤ rm_sum`. -/
def rm_sum (v : ℕ) : ℕ := rm_v_hi v * rm_m_lo + rm_v_lo v * rm_m_hi

/-- `hi_128` after both corrections: `v_hi * m_hi`, plus `1 << 64` if the
middle sum overflowed, plus `mid >> 64`. The `u128` additions cannot wrap
since `v_hi < 2^64` and `m_hi < 2^61`. -/
def rm_hi_128 (v : ℕ) : ℕ :=
  rm_v_hi v * rm_m_hi + (if 2 ^ 128 ≤ rm_sum v then 2 ^ 64 else 0) +
    ((rm_sum v % 2 ^ 128) >>> 64)

/-- `let quot = hi_128 >> 60;` -/
def rm_quot (v : ℕ) : ℕ := rm_hi_128 v >>> 60

/-- `let mulv = quot * (M as u128);` — a wrapping `u128` multiply. -/
def rm_mulv (v : ℕ) : ℕ := (rm_quot v * M) % 2 ^ 128

/-- `reduce_m` from modulus.rs: Barrett-style reduction of a 128-bit value
`v` (in the program always a product `a*b` of two `u64`s) modulo `M`.
`diff = (v as i128) - (mulv as i128)`, one conditional correction
subtracting `M` when `diff > M`, result truncated back to `u64`. -/
def reduce_m (v : ℕ) : ℕ :=
  let diff := i128 v - i128 (rm_mulv v)
  (if (M : ℤ) < diff then diff - (M : ℤ) else diff).toNat

namespace OptiM

/-- `OptiM::addmod` from modulus.rs: the `u128` sum cannot wrap; the final
`as u64` cast truncates the difference (for operands `< M` it is exact). -/
def addmod (a b : ℕ) : ℕ :=
  let r := a + b
  if (M : ℕ) < r then (r - M) % 2 ^ 64 else r % 2 ^ 64

/-- `OptiM::mulmod` from modulus.rs (stable path): the `u128` product of two
`u64`s cannot wrap. -/
def mulmod (a b : ℕ) : ℕ := reduce_m (a * b)

end OptiM

/-! ### Correctness of `reduce_m` away from exact multiples of `M`

The constant satisfies `M_RECIP * M = 2^188 + 155841748587724944`, i.e.
`M_RECIP = ⌈2^188 / M⌉`; the quotient estimate `rm_quot v` is therefore
within one of `v / M`, and the single conditional correction returns
`v % M` whenever `v % M ≠ 0` (for `v % M = 0`, `v > 0`, the strict
comparison `diff > M` can leave the result at `M`; see the bug theorems). -/

lemma rm_split_v (v : ℕ) : v = rm_v_hi v * 2 ^ 64 + rm_v_lo v := by
  rw [rm_v_hi, rm_v_lo, LO_64, Nat.shiftRight_eq_div_pow,
    Nat.and_pow_two_sub_one_eq_mod]
  omega

lemma rm_v_lo_lt (v : ℕ) : rm_v_lo v < 2 ^ 64 := by
  rw [rm_v_lo, LO_64, Nat.and_pow_two_sub_one_eq_mod]
  exact Nat.mod_lt _ (by norm_num)

lemma rm_v_hi_lt (v : ℕ) (hv : v < 2 ^ 128) : rm_v_hi v < 2 ^ 64 := by
  rw [rm_v_hi, Nat.shiftRight_eq_div_pow]
  omega

lemma rm_m_lo_eq : rm_m_lo = 7642523728649841912 := by decide

lemma rm_m_hi_eq : rm_m_hi = 1785867299610752395 := by decide

lemma rm_split_recip : M_RECIP = rm_m_hi * 2 ^ 64 + rm_m_lo := by decide

lemma rm_sum_lt (v : ℕ) (hv : v < 2 ^ 128) : rm_sum v < 2 ^ 129 := by
  have h1 := rm_v_hi_lt v hv
  have h2 := rm_v_lo_lt v
  have h3 : rm_m_lo < 2 ^ 64 := by rw [rm_m_lo_eq]; norm_num
  have h4 : rm_m_hi < 2 ^ 61 := by rw [rm_m_hi_eq]; norm_num
  calc rm_sum v < 2 ^ 64 * 2 ^ 64 + 2 ^ 64 * 2 ^ 61 := by
        exact Nat.add_lt_add (Nat.mul_lt_mul'' h1 h3) (Nat.mul_lt_mul'' h2 h4)
    _ < 2 ^ 129 := by norm_num

/-- The `overflowing_add` carry restores exactly what the `% 2^128`
truncation lost: `hi_128 = v_hi * m_hi + sum / 2^64`. -/
lemma rm_hi_128_eq (v : ℕ) (hv : v < 2 ^ 128) :
    rm_hi_128 v = rm_v_hi v * rm_m_hi + rm_sum v / 2 ^ 64 := by
  have hlt := rm_sum_lt v hv
  rw [rm_hi_128, Nat.shiftRight_eq_div_pow]
  by_cases h : 2 ^ 128 ≤ rm_sum v
  · rw [if_pos h]
    have hmod : rm_sum v % 2 ^ 128 = rm_sum v - 2 ^ 128 := by omega
    rw [hmod]
    have hd := Nat.div_add_mod (rm_sum v) (2 ^ 64)
    have hq : 2 ^ 64 ≤ rm_sum v / 2 ^ 64 := by
      have := Nat.mod_lt (rm_sum v) (y := 2 ^ 64) (by norm_num)
      omega
    have hsub : rm_sum v - 2 ^ 128 =
        2 ^ 64 * (rm_sum v / 2 ^ 64 - 2 ^ 64) + rm_sum v % 2 ^ 64 := by
      omega
    rw [hsub, Nat.mul_add_div (by norm_num)]
    have : rm_sum v % 2 ^ 64 / 2 ^ 64 = 0 := Nat.div_eq_of_lt (Nat.mod_lt _ (by norm_num))
    omega
  · rw [if_neg h, Nat.mod_eq_of_lt (by omega)]
    omega

/-- The exact 256-bit product, written in terms of the three partial
products the code forms. -/
lemma rm_vK_eq (v : ℕ) :
    v * M_RECIP =
      rm_v_hi v * rm_m_hi * 2 ^ 128 + rm_sum v * 2 ^ 64 + rm_v_lo v * rm_m_lo := by
  conv_lhs => rw [rm_split_v v, rm_split_recip]
  rw [rm_sum]
  ring

lemma rm_hi_le (v : ℕ) (hv : v < 2 ^ 128) :
    rm_hi_128 v * 2 ^ 128 ≤ v * M_RECIP := by
  rw [rm_hi_128_eq v hv, rm_vK_eq]
  have h1 : rm_sum v / 2 ^ 64 * 2 ^ 128 ≤ rm_sum v * 2 ^ 64 := by
    calc rm_sum v / 2 ^ 64 * 2 ^ 128 = rm_sum v / 2 ^ 64 * 2 ^ 64 * 2 ^ 64 := by ring
      _ ≤ rm_sum v * 2 ^ 64 := Nat.mul_le_mul_right _ (Nat.div_mul_le_self _ _)
  have h2 : (rm_v_hi v * rm_m_hi + rm_sum v / 2 ^ 64) * 2 ^ 128 =
      rm_v_hi v * rm_m_hi * 2 ^ 128 + rm_sum v / 2 ^ 64 * 2 ^ 128 := by ring
  omega

lemma rm_hi_gt (v : ℕ) (hv : v < 2 ^ 128) :
    v * M_RECIP < rm_hi_128 v * 2 ^ 128 + 2 ^ 129 := by
  rw [rm_hi_128_eq v hv, rm_vK_eq]
  have h1 : rm_sum v * 2 ^ 64 < rm_sum v / 2 ^ 64 * 2 ^ 128 + 2 ^ 128 := by
    have hd := Nat.div_add_mod (rm_sum v) (2 ^ 64)
    have hm : rm_sum v % 2 ^ 64 < 2 ^ 64 := Nat.mod_lt _ (by norm_num)
    calc rm_sum v * 2 ^ 64 = (2 ^ 64 * (rm_sum v / 2 ^ 64) + rm_sum v % 2 ^ 64) * 2 ^ 64 := by
          rw [hd]
      _ = rm_sum v / 2 ^ 64 * 2 ^ 128 + rm_sum v % 2 ^ 64 * 2 ^ 64 := by ring
      _ < rm_sum v / 2 ^ 64 * 2 ^ 128 + 2 ^ 128 := by
          have : rm_sum v % 2 ^ 64 * 2 ^ 64 < 2 ^ 64 * 2 ^ 64 := by
            exact Nat.mul_lt_mul_of_lt_of_le hm (le_refl _) (by norm_num)
          omega
  have h2 : rm_v_lo v * rm_m_lo < 2 ^ 128 := by
    have ha := rm_v_lo_lt v
    have hb : rm_m_lo < 2 ^ 64 := by rw [rm_m_lo_eq]; norm_num
    calc rm_v_lo v * rm_m_lo < 2 ^ 64 * 2 ^ 64 := Nat.mul_lt_mul'' ha hb
      _ = 2 ^ 128 := by norm_num
  have h3 : (rm_v_hi v * rm_m_hi + rm_sum v / 2 ^ 64) * 2 ^ 128 =
      rm_v_hi v * rm_m_hi * 2 ^ 128 + rm_sum v / 2 ^ 64 * 2 ^ 128 := by ring
  omega

lemma rm_recip_M : M_RECIP * M = 2 ^ 188 + 155841748587724944 := by decide

/-- The quotient estimate never overshoots: `quot * M ≤ v` (for `v < 2^127`). -/
lemma rm_quot_mul_le (v : ℕ) (hv : v < 2 ^ 127) : rm_quot v * M ≤ v := by
  have hv128 : v < 2 ^ 128 := by omega
  have h1 : rm_quot v * 2 ^ 60 ≤ rm_hi_128 v := by
    rw [rm_quot, Nat.shiftRight_eq_div_pow]
    exact Nat.div_mul_le_self _ _
  have h2 : rm_quot v * 2 ^ 188 ≤ v * M_RECIP := by
    calc rm_quot v * 2 ^ 188 = rm_quot v * 2 ^ 60 * 2 ^ 128 := by ring
      _ ≤ rm_hi_128 v * 2 ^ 128 := Nat.mul_le_mul_right _ h1
      _ ≤ v * M_RECIP := rm_hi_le v hv128
  have h3 : rm_quot v * M * 2 ^ 188 < (v + 1) * 2 ^ 188 := by
    have hs : v * 155841748587724944 < 2 ^ 188 := by
      calc v * 155841748587724944 < 2 ^ 127 * 155841748587724944 :=
            Nat.mul_lt_mul_of_lt_of_le hv (le_refl _) (by norm_num)
        _ < 2 ^ 188 := by norm_num
    calc rm_quot v * M * 2 ^ 188 = rm_quot v * 2 ^ 188 * M := by ring
      _ ≤ v * M_RECIP * M := Nat.mul_le_mul_right _ h2
      _ = v * (M_RECIP * M) := by ring
      _ = v * 2 ^ 188 + v * 155841748587724944 := by rw [rm_recip_M]; ring
      _ < v * 2 ^ 188 + 2 ^ 188 := by omega
      _ = (v + 1) * 2 ^ 188 := by ring
  have h4 : rm_quot v * M < v + 1 :=
    lt_of_mul_lt_mul_right h3 (Nat.zero_le _)
  omega

/-- The quotient estimate undershoots by less than two: `v < quot * M + 2 * M`. -/
lemma rm_lt_quot (v : ℕ) (hv : v < 2 ^ 128) :
    v < rm_quot v * M + 2 * M := by
  have h1 : rm_hi_128 v < (rm_quot v + 1) * 2 ^ 60 := by
    have hd := Nat.div_add_mod (rm_hi_128 v) (2 ^ 60)
    have hm : rm_hi_128 v % 2 ^ 60 < 2 ^ 60 := Nat.mod_lt _ (by norm_num)
    rw [rm_quot, Nat.shiftRight_eq_div_pow]
    have : (rm_hi_128 v / 2 ^ 60 + 1) * 2 ^ 60 =
        2 ^ 60 * (rm_hi_128 v / 2 ^ 60) + 2 ^ 60 := by ring
    omega
  have h2 : v * 2 ^ 188 < (rm_quot v * M + 2 * M) * 2 ^ 188 := by
    have hMpos : 0 < M := M_pos
    calc v * 2 ^ 188 ≤ v * 2 ^ 188 + v * 155841748587724944 := Nat.le_add_right _ _
      _ = v * (M_RECIP * M) := by rw [rm_recip_M]; ring
      _ = v * M_RECIP * M := by ring
      _ < (rm_hi_128 v * 2 ^ 128 + 2 ^ 129) * M :=
          Nat.mul_lt_mul_of_lt_of_le (rm_hi_gt v hv) (le_refl _) hMpos
      _ ≤ ((rm_quot v + 1) * 2 ^ 60 * 2 ^ 128 + 2 ^ 129) * M := by
          have := Nat.mul_le_mul_right (2 ^ 128) (Nat.le_of_lt h1)
          exact Nat.mul_le_mul_right _ (by omega)
      _ = (rm_quot v + 1) * M * 2 ^ 188 + 2 ^ 129 * M := by ring
      _ ≤ (rm_quot v + 1) * M * 2 ^ 188 + M * 2 ^ 188 := by
          have : 2 ^ 129 * M ≤ M * 2 ^ 188 := by
            calc 2 ^ 129 * M = M * 2 ^ 129 := by ring
              _ ≤ M * 2 ^ 188 := Nat.mul_le_mul_left _ (by norm_num)
          omega
      _ = (rm_quot v * M + 2 * M) * 2 ^ 188 := by ring
  exact lt_of_mul_lt_mul_right h2 (Nat.zero_le _)

lemma rm_mulv_eq (v : ℕ) (hv : v < 2 ^ 127) : rm_mulv v = rm_quot v * M := by
  rw [rm_mulv]
  exact Nat.mod_eq_of_lt (lt_trans (Nat.lt_succ_of_le (rm_quot_mul_le v hv)) (by omega))

lemma i128_of_lt {x : ℕ} (hx : x < 2 ^ 127) : i128 x = (x : ℤ) := if_pos hx

/-- `reduce_m` returns `v % M` whenever `v % M ≠ 0` (and `v < 2^127`,
which holds for every product of two operands `< M`). -/
theorem reduce_m_correct (v : ℕ) (hv : v < 2 ^ 127) (hr : v % M ≠ 0) :
    reduce_m v = v % M := by
  have hq1 := rm_quot_mul_le v hv
  have hq2 := rm_lt_quot v (by omega)
  rw [reduce_m, rm_mulv_eq v hv]
  rw [i128_of_lt hv, i128_of_lt (lt_of_le_of_lt hq1 hv)]
  have hcast : (v : ℤ) - ((rm_quot v * M : ℕ) : ℤ) = ((v - rm_quot v * M : ℕ) : ℤ) := by
    rw [Nat.cast_sub hq1]
  rw [hcast]
  have hrlt : v % M < M := Nat.mod_lt _ M_pos
  have hmod : (v - rm_quot v * M) % M = v % M := by
    conv_rhs =>
      rw [show v = rm_quot v * M + (v - rm_quot v * M) by omega,
        mul_comm (rm_quot v) M]
    rw [Nat.mul_add_mod, mul_comm M (rm_quot v)]
  by_cases h : (M : ℤ) < ((v - rm_quot v * M : ℕ) : ℤ)
  · rw [if_pos h]
    have hMlt : M < v - rm_quot v * M := by exact_mod_cast h
    rw [← Nat.cast_sub (le_of_lt hMlt), Int.toNat_natCast]
    -- v - quot*M is in (M, 2M), so subtracting M gives v % M
    have hsub : (v - rm_quot v * M) % M = v - rm_quot v * M - M := by
      rw [show v - rm_quot v * M = (v - rm_quot v * M - M) + M by omega,
        Nat.add_mod_right, Nat.mod_eq_of_lt (by omega)]
      omega
    omega
  · rw [if_neg h, Int.toNat_natCast]
    have hMge : v - rm_quot v * M ≤ M := by
      have := not_lt.mp h
      exact_mod_cast this
    have hne : v - rm_quot v * M ≠ M := by
      intro he
      exact hr (by rw [← hmod, he, Nat.mod_self])
    rw [← hmod, Nat.mod_eq_of_lt (by omega)]

/-! ## gray_prod_iter.rs : the Gray-code subset-product enumerator

The `Modulus` type parameter is specialized to `OptiM` (`MODULUS`), the
implementation used by every orchestrator. The opaque `RandomState`-free
`ProductSet` carries the element and inverse vectors. -/

/-- `ProductSet` from gray_prod_iter.rs (modulus specialized to `OptiM`). -/
structure ProductSet where
  elems : List ℕ
  inverse : List ℕ
deriving DecidableEq

/-- `to_gray` from gray_prod_iter.rs: index to Gray codeword. -/
def to_gray (v : ℕ) : ℕ := v ^^^ (v >>> 1)

/-- `subsetprod` from gray_prod_iter.rs: fold of `mulmod` over the set
bits of `v` (in-bounds indexing `ps.elems[i]` embedded as `getD`). -/
def subsetprod (v : ℕ) (ps : ProductSet) : ℕ :=
  (List.range ps.elems.length).foldl
    (fun accum i =>
      if v &&& (1 <<< i) ≠ 0 then OptiM.mulmod accum (ps.elems.getD i 0) else accum)
    1

/-- `ProductIter` from gray_prod_iter.rs. The `end` field is a Lean
keyword and is embedded as `stop`. -/
structure ProductIter where
  next : Option (ℕ × ℕ)
  stop : ℕ
deriving DecidableEq

/-- Bit length of a value of at most `fuel` bits (structural recursion on
the bit budget so the kernel can evaluate it). -/
def nbitsAux : ℕ → ℕ → ℕ
  | 0, _ => 0
  | fuel + 1, x => if x = 0 then 0 else nbitsAux fuel (x / 2) + 1

/-- Bit length of a `u64` value. -/
def nbits (x : ℕ) : ℕ := nbitsAux 64 x

/-- `u64::leading_zeros`. -/
def leading_zeros (x : ℕ) : ℕ := 64 - nbits x

/-- `ProductIter::new`: the two asserts and the shift-bound check are
embedded as `none` (panic); note the empty-range early return precedes
every check. -/
def ProductIter.new (product_set : ProductSet) (start stop : ℕ) : Option ProductIter :=
  if start = stop then some ⟨none, stop⟩
  else if ¬ start < stop then none
  else if ¬ product_set.elems.length < 64 then none
  else if ¬ stop ≤ 1 <<< product_set.elems.length then none
  else some ⟨some (start, subsetprod (to_gray start) product_set), stop⟩

/-- `Iterator::next` for `ProductIter` (named `step` since `next` is the
structure field): yields the current `(gray, value)` pair and advances by
one Gray-code twiddle. -/
def ProductIter.step (it : ProductIter) (ps : ProductSet) :
    Option ((ℕ × ℕ) × ProductIter) :=
  match it.next with
  | none => none
  | some (cur_index, cur_val) =>
    let cur_gray := to_gray cur_index
    let next_index := cur_index + 1
    if it.stop ≤ next_index then some ((cur_gray, cur_val), ⟨none, it.stop⟩)
    else
      let next_gray := to_gray next_index
      let diff := cur_gray ^^^ next_gray
      let bit := 63 - leading_zeros diff
      let twiddle :=
        if next_gray &&& diff ≠ 0 then ps.elems.getD bit 0 else ps.inverse.getD bit 0
      let next_val := OptiM.mulmod cur_val twiddle
      some ((cur_gray, cur_val), ⟨some (next_index, next_val), it.stop⟩)

/-- Driving the iterator: collect the yielded items (`fuel` bounds the
number of `next` calls; any `fuel ≥ stop - start` is exhaustive). -/
def runIter (ps : ProductSet) : ProductIter → ℕ → List (ℕ × ℕ)
  | _, 0 => []
  | it, fuel + 1 =>
    match it.step ps with
    | none => []
    | some (item, it') => item :: runIter ps it' fuel

/-- Spec-side definition, from §4.3 of the specification: the product of
`elems[j]` over the set bits `j` of `mask`, reduced mod `M`. -/
def specProd (mask : ℕ) (elems : List ℕ) : ℕ :=
  (∏ j ∈ Finset.range elems.length,
    if mask.testBit j then elems.getD j 0 else 1) % M

/-! ### Gray-code bit arithmetic -/

lemma nbitsAux_zero (fuel : ℕ) : nbitsAux fuel 0 = 0 := by
  cases fuel <;> simp [nbitsAux]

lemma nbitsAux_two_pow (t : ℕ) :
    ∀ fuel, t < fuel → nbitsAux fuel (2 ^ t) = t + 1 := by
  induction t with
  | zero =>
    intro fuel hf
    match fuel, hf with
    | fuel + 1, _ => simp [nbitsAux, nbitsAux_zero]
  | succ t ih =>
    intro fuel hf
    match fuel, hf with
    | fuel + 1, hf =>
      have h1 : (2 : ℕ) ^ (t + 1) ≠ 0 := by positivity
      have h2 : (2 : ℕ) ^ (t + 1) / 2 = 2 ^ t := by
        rw [pow_succ]
        exact Nat.mul_div_cancel _ (by norm_num)
      simp [nbitsAux, h1, h2, ih fuel (by omega)]

/-- The bit index computed by `63 - diff.leading_zeros()` for `diff = 2^t`. -/
lemma bit_of_two_pow (t : ℕ) (ht : t ≤ 63) : 63 - leading_zeros (2 ^ t) = t := by
  rw [leading_zeros, nbits, nbitsAux_two_pow t 64 (by omega)]
  omega

lemma xor_decomp (a b : ℕ) :
    a ^^^ b = 2 * (a / 2 ^^^ b / 2) + (a % 2 ^^^ b % 2) := by
  apply Nat.eq_of_testBit_eq
  intro j
  cases j with
  | zero =>
    rcases Nat.mod_two_eq_zero_or_one a with ha | ha <;>
      rcases Nat.mod_two_eq_zero_or_one b with hb | hb <;>
        simp [Nat.testBit_xor, Nat.testBit_zero, Nat.mul_add_mod, ha, hb] <;>
          omega
  | succ k =>
    have hr : (a % 2 ^^^ b % 2) < 2 := by
      rcases Nat.mod_two_eq_zero_or_one a with ha | ha <;>
        rcases Nat.mod_two_eq_zero_or_one b with hb | hb <;>
          simp [ha, hb]
    have h2 : (2 * (a / 2 ^^^ b / 2) + (a % 2 ^^^ b % 2)) / 2 = a / 2 ^^^ b / 2 := by
      omega
    rw [Nat.testBit_xor a b (k + 1), Nat.testBit_succ a k, Nat.testBit_succ b k,
      Nat.testBit_succ (2 * (a / 2 ^^^ b / 2) + (a % 2 ^^^ b % 2)) k, h2,
      Nat.testBit_xor (a / 2) (b / 2) k]

/-- Number of trailing one bits (the position of the bit that flips between
`gray i` and `gray (i+1)`). -/
def trailingOnes (i : ℕ) : ℕ :=
  if i % 2 = 1 then trailingOnes (i / 2) + 1 else 0
termination_by i
decreasing_by exact Nat.div_lt_self (by omega) (by omega)

lemma trailingOnes_even (i : ℕ) (h : i % 2 = 0) : trailingOnes i = 0 := by
  rw [trailingOnes]
  simp [h]

lemma trailingOnes_odd (i : ℕ) (h : i % 2 = 1) :
    trailingOnes i = trailingOnes (i / 2) + 1 := by
  rw [trailingOnes]
  simp [h]

lemma xor_succ_self (i : ℕ) : i ^^^ (i + 1) = 2 ^ (trailingOnes i + 1) - 1 := by
  induction i using Nat.strong_induction_on with
  | _ i ih =>
    rcases Nat.mod_two_eq_zero_or_one i with h | h
    · have h1 : i / 2 ^^^ (i + 1) / 2 = 0 := by
        rw [show (i + 1) / 2 = i / 2 by omega, Nat.xor_self]
      have h2 : i % 2 ^^^ (i + 1) % 2 = 1 := by
        rw [h, show (i + 1) % 2 = 1 by omega]
        simp
      rw [xor_decomp, h1, h2, trailingOnes_even i h]
      norm_num
    · have hi : 0 < i := by omega
      have h1 : (i + 1) / 2 = i / 2 + 1 := by omega
      have h2 : (i + 1) % 2 = 0 := by omega
      rw [xor_decomp, h1, h2, h, show (1 ^^^ 0 : ℕ) = 1 from rfl,
        ih (i / 2) (Nat.div_lt_self hi one_lt_two), trailingOnes_odd i h]
      have h4 : 0 < 2 ^ (trailingOnes (i / 2) + 1) := pow_pos (by norm_num) _
      have h5 : 2 ^ (trailingOnes (i / 2) + 1 + 1) =
          2 * 2 ^ (trailingOnes (i / 2) + 1) := by ring
      omega

lemma trailingOnes_le (i : ℕ) : 2 ^ trailingOnes i - 1 ≤ i := by
  induction i using Nat.strong_induction_on with
  | _ i ih =>
    rcases Nat.mod_two_eq_zero_or_one i with h | h
    · rw [trailingOnes_even i h]
      simp
    · have hi : 0 < i := by omega
      rw [trailingOnes_odd i h]
      have h3 := ih (i / 2) (Nat.div_lt_self hi one_lt_two)
      have h4 : 0 < 2 ^ trailingOnes (i / 2) := pow_pos (by norm_num) _
      have h5 : 2 ^ (trailingOnes (i / 2) + 1) = 2 * 2 ^ trailingOnes (i / 2) := by
        ring
      omega

lemma trailingOnes_lt (i n : ℕ) (h : i + 1 < 2 ^ n) : trailingOnes i < n := by
  by_contra hc
  push_neg at hc
  have h1 := trailingOnes_le i
  have h2 : 2 ^ n ≤ 2 ^ trailingOnes i := Nat.pow_le_pow_right (by norm_num) hc
  omega

lemma to_gray_xor (a b : ℕ) : to_gray a ^^^ to_gray b = to_gray (a ^^^ b) := by
  apply Nat.eq_of_testBit_eq
  intro j
  simp only [to_gray, Nat.testBit_xor, Nat.testBit_shiftRight]
  cases a.testBit j <;> cases b.testBit j <;>
    cases a.testBit (1 + j) <;> cases b.testBit (1 + j) <;> rfl

lemma to_gray_two_pow_sub_one (t : ℕ) : to_gray (2 ^ (t + 1) - 1) = 2 ^ t := by
  have hdiv : (2 ^ (t + 1) - 1) >>> 1 = 2 ^ t - 1 := by
    rw [Nat.shiftRight_eq_div_pow, pow_one]
    have h1 : 2 ^ (t + 1) = 2 * 2 ^ t := by ring
    have h2 : 0 < 2 ^ t := pow_pos (by norm_num) _
    omega
  apply Nat.eq_of_testBit_eq
  intro j
  rw [to_gray, hdiv, Nat.testBit_xor, Nat.testBit_two_pow_sub_one,
    Nat.testBit_two_pow_sub_one, Nat.testBit_two_pow]
  rcases lt_trichotomy j t with h | h | h
  · simp [h, Nat.lt_succ_of_lt h, Nat.ne_of_gt h]
  · subst h
    simp
  · have h1 : ¬ j < t := by omega
    have h2 : ¬ j < t + 1 := by omega
    simp [h1, h2, Nat.ne_of_lt h]

/-- The single bit that flips between consecutive Gray codewords. -/
lemma gray_step (i : ℕ) :
    to_gray i ^^^ to_gray (i + 1) = 2 ^ trailingOnes i := by
  rw [to_gray_xor, xor_succ_self, to_gray_two_pow_sub_one]

lemma xor_two_pow_testBit {x y t : ℕ} (h : x ^^^ y = 2 ^ t) :
    y = x ^^^ 2 ^ t ∧ y.testBit t = ! x.testBit t ∧
      ∀ j, j ≠ t → y.testBit j = x.testBit j := by
  have hy : y = x ^^^ 2 ^ t := by
    rw [← h, Nat.xor_cancel_left]
  refine ⟨hy, ?_, ?_⟩
  · rw [hy, Nat.testBit_xor, Nat.testBit_two_pow]
    simp
  · intro j hj
    rw [hy, Nat.testBit_xor, Nat.testBit_two_pow]
    simp [Ne.symm hj]

/-! ### Subset products in `ZMod M` -/

/-- The subset product as an element of `ZMod M`. -/
def prodZ (mask : ℕ) (elems : List ℕ) : ZMod M :=
  ∏ j ∈ Finset.range elems.length,
    if mask.testBit j then (elems.getD j 0 : ZMod M) else 1

lemma specProd_lt (mask : ℕ) (elems : List ℕ) : specProd mask elems < M :=
  Nat.mod_lt _ M_pos

lemma specProd_cast (mask : ℕ) (elems : List ℕ) :
    ((specProd mask elems : ℕ) : ZMod M) = prodZ mask elems := by
  rw [specProd, prodZ, ZMod.natCast_mod, Nat.cast_prod]
  apply Finset.prod_congr rfl
  intro j hj
  split_ifs <;> simp

lemma cast_inj_of_lt {a b : ℕ} (ha : a < M) (hb : b < M)
    (h : (a : ZMod M) = (b : ZMod M)) : a = b := by
  have h2 := congrArg ZMod.val h
  rwa [ZMod.val_cast_of_lt ha, ZMod.val_cast_of_lt hb] at h2

/-- Well-formedness of a `ProductSet`: the data-model invariant established
by `ProductSet::new` (elements below `M`, `invs[i]` the modular inverse of
`elems[i]`). -/
def ProductSet.WF (ps : ProductSet) : Prop :=
  ps.inverse.length = ps.elems.length ∧
    (∀ e ∈ ps.elems, e < M) ∧ (∀ e ∈ ps.inverse, e < M) ∧
    ∀ i, i < ps.elems.length → (ps.elems.getD i 0 * ps.inverse.getD i 0) % M = 1

lemma wf_elem_lt {ps : ProductSet} (h : ps.WF) {i : ℕ}
    (hi : i < ps.elems.length) : ps.elems.getD i 0 < M := by
  apply h.2.1
  rw [List.getD_eq_getElem _ _ hi]
  exact List.getElem_mem hi

lemma wf_inv_lt {ps : ProductSet} (h : ps.WF) {i : ℕ}
    (hi : i < ps.elems.length) : ps.inverse.getD i 0 < M := by
  apply h.2.2.1
  have hi2 : i < ps.inverse.length := by rw [h.1]; exact hi
  rw [List.getD_eq_getElem _ _ hi2]
  exact List.getElem_mem hi2

lemma inv_cast_one {e w : ℕ} (h : (e * w) % M = 1) :
    (e : ZMod M) * (w : ZMod M) = 1 := by
  have h2 : (((e * w) % M : ℕ) : ZMod M) = ((1 : ℕ) : ZMod M) := by rw [h]
  rwa [ZMod.natCast_mod, Nat.cast_mul, Nat.cast_one] at h2

lemma wf_elem_unit {ps : ProductSet} (h : ps.WF) {i : ℕ}
    (hi : i < ps.elems.length) : IsUnit ((ps.elems.getD i 0 : ℕ) : ZMod M) :=
  isUnit_of_mul_eq_one _ _ (inv_cast_one (h.2.2.2 i hi))

lemma wf_inv_unit {ps : ProductSet} (h : ps.WF) {i : ℕ}
    (hi : i < ps.elems.length) : IsUnit ((ps.inverse.getD i 0 : ℕ) : ZMod M) := by
  apply isUnit_of_mul_eq_one _ ((ps.elems.getD i 0 : ℕ) : ZMod M)
  rw [mul_comm]
  exact inv_cast_one (h.2.2.2 i hi)

lemma prodZ_isUnit {ps : ProductSet} (h : ps.WF) (mask : ℕ) :
    IsUnit (prodZ mask ps.elems) := by
  rw [prodZ]
  apply Finset.prod_induction _ IsUnit (fun a b ha hb => ha.mul hb) isUnit_one
  intro j hj
  split_ifs with hb
  · exact wf_elem_unit h (Finset.mem_range.mp hj)
  · exact isUnit_one

/-- Flipping an unset bit on multiplies the subset product by that element. -/
lemma prodZ_flip_on {elems : List ℕ} {mask t : ℕ} (ht : t < elems.length)
    (hb : mask.testBit t = false) :
    prodZ (mask ^^^ 2 ^ t) elems = prodZ mask elems * (elems.getD t 0 : ZMod M) := by
  have htm : t ∈ Finset.range elems.length := Finset.mem_range.mpr ht
  have hbt : (mask ^^^ 2 ^ t).testBit t = true := by
    rw [Nat.testBit_xor, hb, Nat.testBit_two_pow]
    simp
  have hsame : ∀ j, j ≠ t → (mask ^^^ 2 ^ t).testBit j = mask.testBit j := by
    intro j hj
    rw [Nat.testBit_xor, Nat.testBit_two_pow]
    simp [Ne.symm hj]
  have herase :
      (∏ j ∈ (Finset.range elems.length).erase t,
        if (mask ^^^ 2 ^ t).testBit j then (elems.getD j 0 : ZMod M) else 1) =
      ∏ j ∈ (Finset.range elems.length).erase t,
        if mask.testBit j then (elems.getD j 0 : ZMod M) else 1 := by
    apply Finset.prod_congr rfl
    intro j hj
    rw [hsame j (Finset.ne_of_mem_erase hj)]
  rw [prodZ, prodZ, ← Finset.mul_prod_erase _ _ htm, herase,
    ← Finset.mul_prod_erase _
      (fun j => if mask.testBit j then (elems.getD j 0 : ZMod M) else 1) htm]
  rw [hbt, hb]
  simp [mul_comm, mul_assoc, mul_left_comm]

/-- `mulmod` agrees with `(a * w) % M` when the product is a unit mod `M`. -/
lemma mulmod_step {a w : ℕ} (ha : a < M) (hw : w < M)
    (hu : IsUnit ((a : ZMod M) * (w : ZMod M))) :
    OptiM.mulmod a w = (a * w) % M := by
  have hvlt : a * w < 2 ^ 127 := by
    calc a * w ≤ (M - 1) * (M - 1) := Nat.mul_le_mul (by omega) (by omega)
      _ < 2 ^ 127 := by norm_num [M]
  apply reduce_m_correct _ hvlt
  intro h0
  have hdvd : M ∣ a * w := Nat.dvd_of_mod_eq_zero h0
  have hz : ((a * w : ℕ) : ZMod M) = 0 :=
    (ZMod.natCast_zmod_eq_zero_iff_dvd _ _).mpr hdvd
  rw [Nat.cast_mul] at hz
  exact hu.ne_zero hz

lemma mulmod_cast {a w : ℕ} :
    (((a * w) % M : ℕ) : ZMod M) = (a : ZMod M) * (w : ZMod M) := by
  rw [ZMod.natCast_mod, Nat.cast_mul]

/-- The initializing fold `subsetprod` lands below `M`, is a unit, and
matches the subset product in `ZMod M`. -/
lemma subsetprod_spec (ps : ProductSet) (hwf : ps.WF) (mask : ℕ) :
    subsetprod mask ps < M ∧
      ((subsetprod mask ps : ℕ) : ZMod M) = prodZ mask ps.elems := by
  rw [subsetprod, prodZ]
  suffices h : ∀ k, k ≤ ps.elems.length →
      ((List.range k).foldl
        (fun accum i =>
          if mask &&& (1 <<< i) ≠ 0 then OptiM.mulmod accum (ps.elems.getD i 0)
          else accum) 1) < M ∧
      IsUnit ((((List.range k).foldl
        (fun accum i =>
          if mask &&& (1 <<< i) ≠ 0 then OptiM.mulmod accum (ps.elems.getD i 0)
          else accum) 1 : ℕ)) : ZMod M) ∧
      ((((List.range k).foldl
        (fun accum i =>
          if mask &&& (1 <<< i) ≠ 0 then OptiM.mulmod accum (ps.elems.getD i 0)
          else accum) 1 : ℕ)) : ZMod M) =
        ∏ j ∈ Finset.range k,
          if mask.testBit j then (ps.elems.getD j 0 : ZMod M) else 1 by
    obtain ⟨h1, _, h3⟩ := h ps.elems.length (le_refl _)
    exact ⟨h1, h3⟩
  intro k
  induction k with
  | zero =>
    intro _
    refine ⟨by norm_num [M], ?_, ?_⟩ <;> simp
  | succ k ih =>
    intro hk
    have hklt : k < ps.elems.length := by omega
    obtain ⟨ih1, ih2, ih3⟩ := ih (by omega)
    rw [List.range_succ, List.foldl_append, Finset.prod_range_succ]
    simp only [List.foldl_cons, List.foldl_nil]
    have hcond : (mask &&& (1 <<< k) ≠ 0) ↔ mask.testBit k = true := by
      rw [Nat.shiftLeft_eq, one_mul, Nat.and_two_pow]
      cases h : mask.testBit k <;> simp [h]
    by_cases hb : mask.testBit k = true
    · rw [if_pos (hcond.mpr hb), hb, if_pos rfl]
      have he := wf_elem_lt hwf hklt
      have heu := wf_elem_unit hwf hklt
      have hmm := mulmod_step ih1 he (ih2.mul heu)
      rw [hmm]
      refine ⟨Nat.mod_lt _ M_pos, ?_, ?_⟩
      · rw [mulmod_cast]
        exact ih2.mul heu
      · rw [mulmod_cast, ih3]
    · rw [if_neg (fun hc => hb (hcond.mp hc)), if_neg hb]
      exact ⟨ih1, ih2, by rw [ih3, mul_one]⟩

lemma runIter_none (ps : ProductSet) (stop fuel : ℕ) :
    runIter ps ⟨none, stop⟩ fuel = [] := by
  cases fuel <;> simp [runIter, ProductIter.step]

lemma range_map_shift {α : Type} (f : ℕ → α) (m : ℕ) :
    (List.range (m + 1)).map f = f 0 :: (List.range m).map (fun k => f (k + 1)) := by
  rw [List.range_succ_eq_map, List.map_cons, List.map_map]
  rfl

/-- Invariant run: from a live iterator state `(i, val)` with `val` the
subset product of `gray i`, the run yields exactly the remaining pairs. -/
lemma runIter_go (ps : ProductSet) (hwf : ps.WF) (n : ℕ) (hn : ps.elems.length = n)
    (hn63 : n ≤ 63) (stop : ℕ) (hstop : stop ≤ 2 ^ n) :
    ∀ fuel i val, i < stop → stop - i ≤ fuel → val < M →
      ((val : ℕ) : ZMod M) = prodZ (to_gray i) ps.elems →
      runIter ps ⟨some (i, val), stop⟩ fuel =
        (List.range (stop - i)).map
          (fun k => (to_gray (i + k), specProd (to_gray (i + k)) ps.elems)) := by
  intro fuel
  induction fuel with
  | zero =>
    intro i val hi hfuel _ _
    omega
  | succ fuel ih =>
    intro i val hi hfuel hval hcast
    have hval_eq : val = specProd (to_gray i) ps.elems :=
      cast_inj_of_lt hval (specProd_lt _ _) (by rw [hcast, specProd_cast])
    have hunit : IsUnit ((val : ℕ) : ZMod M) := by
      rw [hcast]
      exact prodZ_isUnit hwf _
    by_cases hend : stop ≤ i + 1
    · have h1 : stop - i = 1 := by omega
      rw [h1]
      simp only [runIter, ProductIter.step]
      rw [if_pos hend]
      dsimp only
      rw [runIter_none, show (1 : ℕ) = 0 + 1 from rfl, List.range_succ]
      simp [hval_eq]
    · push_neg at hend
      have hi2 : i + 1 < 2 ^ n := by omega
      have hkey : to_gray i ^^^ to_gray (i + 1) = 2 ^ trailingOnes i := gray_step i
      have htlt : trailingOnes i < n := trailingOnes_lt i n hi2
      have htlen : trailingOnes i < ps.elems.length := by omega
      obtain ⟨hnext_eq, hflip, _⟩ := xor_two_pow_testBit hkey
      simp only [runIter, ProductIter.step]
      rw [if_neg (by omega : ¬ stop ≤ i + 1), hkey,
        bit_of_two_pow _ (by omega : trailingOnes i ≤ 63)]
      have hand : to_gray (i + 1) &&& 2 ^ trailingOnes i =
          ((to_gray (i + 1)).testBit (trailingOnes i)).toNat * 2 ^ trailingOnes i :=
        Nat.and_two_pow _ _
      have hshape : stop - i = (stop - (i + 1)) + 1 := by omega
      by_cases hbit : (to_gray (i + 1)).testBit (trailingOnes i) = true
      · have hcur : (to_gray i).testBit (trailingOnes i) = false := by
          rw [hbit] at hflip
          cases h : (to_gray i).testBit (trailingOnes i)
          · rfl
          · rw [h] at hflip
            exact absurd hflip.symm (by simp)
        rw [if_pos (by rw [hand, hbit]; simp)]
        have he := wf_elem_lt hwf htlen
        have heu := wf_elem_unit hwf htlen
        rw [mulmod_step hval he (hunit.mul heu)]
        dsimp only
        have hcast' : (((val * ps.elems.getD (trailingOnes i) 0) % M : ℕ) : ZMod M) =
            prodZ (to_gray (i + 1)) ps.elems := by
          rw [mulmod_cast, hcast, hnext_eq, prodZ_flip_on htlen hcur]
        rw [ih (i + 1) _ (by omega) (by omega) (Nat.mod_lt _ M_pos) hcast',
          hshape, range_map_shift]
        refine congrArg₂ _ (by rw [Nat.add_zero, hval_eq]) ?_
        apply List.map_congr_left
        intro k _
        rw [show i + (k + 1) = i + 1 + k by omega]
      · have hbitf : (to_gray (i + 1)).testBit (trailingOnes i) = false := by
          simpa using hbit
        have hcur : (to_gray i).testBit (trailingOnes i) = true := by
          rw [hbitf] at hflip
          cases h : (to_gray i).testBit (trailingOnes i)
          · rw [h] at hflip
            exact absurd hflip.symm (by simp)
          · rfl
        rw [if_neg (by rw [hand, hbitf]; simp)]
        have hw := wf_inv_lt hwf htlen
        have hwu := wf_inv_unit hwf htlen
        rw [mulmod_step hval hw (hunit.mul hwu)]
        dsimp only
        have hgray_cur : to_gray i = to_gray (i + 1) ^^^ 2 ^ trailingOnes i := by
          rw [hnext_eq, Nat.xor_assoc, Nat.xor_self, Nat.xor_zero]
        have hcast' : (((val * ps.inverse.getD (trailingOnes i) 0) % M : ℕ) : ZMod M) =
            prodZ (to_gray (i + 1)) ps.elems := by
          rw [mulmod_cast, hcast, hgray_cur, prodZ_flip_on htlen hbitf, mul_assoc,
            inv_cast_one (hwf.2.2.2 _ htlen), mul_one]
        rw [ih (i + 1) _ (by omega) (by omega) (Nat.mod_lt _ M_pos) hcast',
          hshape, range_map_shift]
        refine congrArg₂ _ (by rw [Nat.add_zero, hval_eq]) ?_
        apply List.map_congr_left
        intro k _
        rw [show i + (k + 1) = i + 1 + k by omega]

/-- C2: the Gray-code enumerator yields exactly `end - start` pairs, the
`i`-th being `(gray (start+i), ∏ elems over the set bits of gray (start+i) mod M)`. -/
theorem productIter_correct (ps : ProductSet) (hwf : ps.WF) (n start stop fuel : ℕ)
    (hn : ps.elems.length = n) (hn63 : n ≤ 63) (hse : start ≤ stop)
    (hstop : stop ≤ 2 ^ n) (it : ProductIter)
    (hnew : ProductIter.new ps start stop = some it) (hfuel : stop - start ≤ fuel) :
    runIter ps it fuel =
      (List.range (stop - start)).map
        (fun k => (to_gray (start + k), specProd (to_gray (start + k)) ps.elems)) := by
  rw [ProductIter.new] at hnew
  by_cases hes : start = stop
  · rw [if_pos hes] at hnew
    obtain rfl : (⟨none, stop⟩ : ProductIter) = it := Option.some_injective _ hnew
    rw [runIter_none, hes, Nat.sub_self]
    rfl
  · have hlt : start < stop := lt_of_le_of_ne hse hes
    rw [if_neg hes, if_neg (not_not_intro hlt),
      if_neg (not_not_intro (show ps.elems.length < 64 by omega)),
      if_neg (not_not_intro (by
        rw [Nat.shiftLeft_eq, one_mul, hn]
        exact hstop))] at hnew
    obtain rfl : (⟨some (start, subsetprod (to_gray start) ps), stop⟩ : ProductIter) = it :=
      Option.some_injective _ hnew
    obtain ⟨hsp1, hsp2⟩ := subsetprod_spec ps hwf (to_gray start)
    exact runIter_go ps hwf n hn hn63 stop hstop fuel start _ hlt hfuel hsp1 hsp2

theorem productIter_correct_witness :
    (3 * 7939241598818363167) % M = 1 ∧
      runIter ⟨[3], [7939241598818363167]⟩ ⟨some (0, 1), 2⟩ 2 = [(0, 1), (1, 3)] := by
  refine ⟨by decide, ?_⟩
  have h := productIter_correct ⟨[3], [7939241598818363167]⟩
    ⟨rfl, by decide, by decide, by decide⟩ 1 0 2 2 rfl (by norm_num) (by norm_num)
    (by norm_num) ⟨some (0, 1), 2⟩ (by decide) (by norm_num)
  rw [h]
  decide

/-- C1 (code bug): for `a = 2`, `b = M/2` (so `a·b = M`), `mulmod` returns
`M` itself, not `(a·b) mod M = 0` — the correction step uses `diff > M`
where `diff ≥ M` is needed. -/
theorem mulmod_exact_multiple_bug :
    OptiM.mulmod 2 5954431199113772375 = M ∧
      (2 * 5954431199113772375) % M = 0 := by
  constructor <;> decide

/-- C3 (code bug): for `a = b = M/2` (so `a + b = M`), `addmod` returns `M`
itself, not `0` — the reduction uses `r > M` where `r ≥ M` is needed. -/
theorem addmod_sum_eq_M_bug :
    OptiM.addmod 5954431199113772375 5954431199113772375 = M ∧
      (5954431199113772375 + 5954431199113772375) % M = 0 := by
  constructor <;> decide

/-- C6 counterexample: a `ProductSet` with 64 (≥ 64) elements and an empty
range `start = end = 0` does *not* panic — `ProductIter::new` returns
before any assertion runs, contradicting the claim that `n ≥ 64` always
panics. -/
theorem productIter_new_empty_no_panic :
    ProductIter.new ⟨List.replicate 64 1, List.replicate 64 1⟩ 0 0 ≠ none := by
  decide

/-- C6 (amended): on an empty range (`start = end`) `new` returns a clean
zero-element iterator with no checks at all; on a non-empty range it panics
exactly when `end < start`, `n ≥ 64`, or `end > 2^n`. -/
theorem productIter_new_panic_conditions (ps : ProductSet) (start stop : ℕ) :
    (start = stop → ProductIter.new ps start stop = some ⟨none, stop⟩ ∧
      ∀ fuel, runIter ps ⟨none, stop⟩ fuel = []) ∧
    (start ≠ stop →
      (ProductIter.new ps start stop = none ↔
        stop < start ∨ 64 ≤ ps.elems.length ∨ 2 ^ ps.elems.length < stop)) := by
  constructor
  · intro h
    rw [ProductIter.new, if_pos h]
    exact ⟨rfl, fun fuel => runIter_none ps stop fuel⟩
  · intro h
    rw [ProductIter.new, if_neg h]
    by_cases h1 : start < stop
    · rw [if_neg (not_not_intro h1)]
      by_cases h2 : ps.elems.length < 64
      · rw [if_neg (not_not_intro h2)]
        by_cases h3 : stop ≤ 1 <<< ps.elems.length
        · rw [if_neg (not_not_intro h3)]
          rw [Nat.shiftLeft_eq, one_mul] at h3
          exact iff_of_false (by simp) (by omega)
        · rw [if_pos h3]
          rw [Nat.shiftLeft_eq, one_mul] at h3
          exact iff_of_true rfl (Or.inr (Or.inr (by omega)))
      · rw [if_pos h2]
        exact iff_of_true rfl (Or.inr (Or.inl (by omega)))
    · rw [if_pos h1]
      exact iff_of_true rfl (Or.inl (by omega))

theorem productIter_new_panic_conditions_witness :
    (ProductIter.new ⟨[1], [1]⟩ 5 5 = some ⟨none, 5⟩) ∧
      (ProductIter.new ⟨[1], [1]⟩ 0 5 = none ↔
        (5 : ℕ) < 0 ∨ 64 ≤ ([1] : List ℕ).length ∨ 2 ^ ([1] : List ℕ).length < 5) :=
  ⟨((productIter_new_panic_conditions ⟨[1], [1]⟩ 5 5).1 rfl).1,
   (productIter_new_panic_conditions ⟨[1], [1]⟩ 0 5).2 (by norm_num)⟩

/-! ## bitset/stable.rs : the atomic bit set

Atomics are embedded as plain words (the claims here are about the
sequential contents); `Vec` indexing out of bounds is a panic, embedded as
`none`. -/

/-- `usize::max_value().count_ones()` on the 64-bit targets the program
runs on. -/
def usize_bits : ℕ := 64

structure BitSet where
  bits : List ℕ
deriving DecidableEq

/-- `BitSet::new`: `(capacity + usize_bits - 1) / usize_bits` zeroed words. -/
def BitSet.new (capacity : ℕ) : BitSet :=
  ⟨List.replicate ((capacity + usize_bits - 1) / usize_bits) 0⟩

/-- `BitSet::insert`: `fetch_or` of `1 << bit` into the addressed word. -/
def BitSet.insert (bs : BitSet) (index : ℕ) : Option BitSet :=
  let block := index / usize_bits
  let bit := index % usize_bits
  if block < bs.bits.length then
    some ⟨bs.bits.set block (bs.bits.getD block 0 ||| (1 <<< bit))⟩
  else none

/-- `BitSet::contains`. -/
def BitSet.contains (bs : BitSet) (index : ℕ) : Option Bool :=
  let block := index / usize_bits
  let bit := index % usize_bits
  if block < bs.bits.length then
    some (decide (bs.bits.getD block 0 &&& (1 <<< bit) ≠ 0))
  else none

/-- `BitSet::cross_or`: the loop zips the two word vectors, so words past
the shorter vector are left untouched. -/
def BitSet.cross_or (a b : BitSet) : BitSet × BitSet :=
  (⟨List.zipWith (· ||| ·) a.bits b.bits ++ a.bits.drop b.bits.length⟩,
   ⟨List.zipWith (· ||| ·) a.bits b.bits ++ b.bits.drop a.bits.length⟩)

/-! ## bloomfilter/conc_bloom.rs : the concurrent Bloom filter

`RandomState` hashing is opaque; an item's `k` hash values
(`hasher.finish() as usize`, one per seed) are passed as a list, the same
list on every call for the same item and filter family — that is exactly
the determinism the code gets from cloning its `hash_states`. -/

def LOCAL_INDEXES : ℕ := 2

def LOCAL_MASK : ℕ := (1 <<< 8) - 1

/-- `!LOCAL_MASK` on the 64-bit `usize`. -/
def NOT_LOCAL_MASK : ℕ := 2 ^ 64 - 2 ^ 8

/-- The mutable cursor of `BitSelector` (`locality`, `local_index`). -/
structure BitSelectorState where
  locality : Option ℕ
  local_index : ℕ
deriving DecidableEq

/-- One call of `BitSelector::next` on hash value `hash`. Note
`local_index` is never reset, so `locality` is re-armed only while
`local_index + 1 < LOCAL_INDEXES`. -/
def bitSelectorStep (mask : ℕ) (st : BitSelectorState) (hash : ℕ) :
    ℕ × BitSelectorState :=
  let om : ℕ × ℕ :=
    match st.locality with
    | some x => (x, LOCAL_MASK)
    | none => (0, mask)
  let index := (hash &&& om.2) + om.1
  let li := st.local_index + 1
  if LOCAL_INDEXES ≤ li then (index, ⟨none, li⟩)
  else (index, ⟨some (index &&& NOT_LOCAL_MASK), li⟩)

def bitIndicesFrom (mask : ℕ) : BitSelectorState → List ℕ → List ℕ
  | _, [] => []
  | st, h :: hs =>
    (bitSelectorStep mask st h).1 ::
      bitIndicesFrom mask (bitSelectorStep mask st h).2 hs

/-- The bit indices a `BitSelector` produces for one item, given the item's
hash values. -/
def bitIndices (hashes : List ℕ) (mask : ℕ) : List ℕ :=
  bitIndicesFrom mask ⟨none, 0⟩ hashes

/-- `Builder` (hash seeds opaque; their number kept). -/
structure Builder where
  size : ℕ
  mask : ℕ
  hashes : ℕ
deriving DecidableEq

/-- `let mut size_bits = 64 - size.leading_zeros() - 1;` followed by the
round-up check `if 1 << size_bits < size { size_bits += 1; }`. -/
def builder_size_bits (size : ℕ) : ℕ :=
  let size_bits := 64 - leading_zeros size - 1
  if 1 <<< size_bits < size then size_bits + 1 else size_bits

/-- `Builder::new`: rounds `size` up to the next power of two;
`size = 0` makes the `u32` subtraction underflow and `size_bits ≥ 64`
makes `1 << size_bits` overflow `usize` (both panic, embedded `none`). -/
def Builder.new (size hashes : ℕ) : Option Builder :=
  if size = 0 then none
  else if 64 ≤ builder_size_bits size then none
  else some ⟨1 <<< builder_size_bits size, 1 <<< builder_size_bits size - 1, hashes⟩

structure BloomFilter where
  bits : BitSet
  mask : ℕ
deriving DecidableEq

/-- `Builder::build`. -/
def Builder.build (bu : Builder) : BloomFilter := ⟨BitSet.new bu.size, bu.mask⟩

def insertAll : BitSet → List ℕ → Option BitSet
  | bs, [] => some bs
  | bs, i :: is =>
    match bs.insert i with
    | none => none
    | some bs2 => insertAll bs2 is

/-- `BloomFilter::put`: insert every selected bit index. -/
def BloomFilter.put (f : BloomFilter) (hashes : List ℕ) : Option BloomFilter :=
  (insertAll f.bits (bitIndices hashes f.mask)).map (fun bs => ⟨bs, f.mask⟩)

def containsAll : BitSet → List ℕ → Option Bool
  | _, [] => some true
  | bs, i :: is =>
    match bs.contains i with
    | none => none
    | some false => some false
    | some true => containsAll bs is

/-- `BloomFilter::maybe_present`: true iff every selected bit is set
(early false on the first clear bit). -/
def BloomFilter.maybe_present (f : BloomFilter) (hashes : List ℕ) : Option Bool :=
  containsAll f.bits (bitIndices hashes f.mask)

/-- `BloomFilter::cross_or`: asserts equal masks, then delegates. -/
def BloomFilter.cross_or (a b : BloomFilter) : Option (BloomFilter × BloomFilter) :=
  if a.mask = b.mask then
    some (⟨(BitSet.cross_or a.bits b.bits).1, a.mask⟩,
      ⟨(BitSet.cross_or a.bits b.bits).2, b.mask⟩)
  else none

/-- A sequence of later `put`s (for the durability part of the
no-false-negative claim). -/
def putAll : BloomFilter → List (List ℕ) → Option BloomFilter
  | f, [] => some f
  | f, hs :: rest =>
    match f.put hs with
    | none => none
    | some f2 => putAll f2 rest

/-! ### Locality bunching (C4) and index bounds (C10) -/

/-- Clearing the low 8 bits with `& !LOCAL_MASK` = rounding down to a
multiple of 256 (for values in the `usize` range). -/
lemma and_not_local_mask (x : ℕ) (hx : x < 2 ^ 64) :
    x &&& NOT_LOCAL_MASK = x / 256 * 256 := by
  apply Nat.eq_of_testBit_eq
  intro j
  have he : (NOT_LOCAL_MASK : ℕ) = (2 ^ 56 - 1) <<< 8 := by
    rw [NOT_LOCAL_MASK, Nat.shiftLeft_eq]
    norm_num
  have hdiv : x / 256 * 256 = (x >>> 8) <<< 8 := by
    rw [Nat.shiftRight_eq_div_pow, Nat.shiftLeft_eq]
  rw [Nat.testBit_and, he, Nat.testBit_shiftLeft, Nat.testBit_two_pow_sub_one,
    hdiv, Nat.testBit_shiftLeft, Nat.testBit_shiftRight]
  by_cases h8 : 8 ≤ j
  · have hj : 8 + (j - 8) = j := by omega
    by_cases h64 : j < 64
    · have h56 : j - 8 < 56 := by omega
      simp [h8, hj, h56, ge_iff_le]
    · have hf : x.testBit j = false :=
        Nat.testBit_lt_two_pow
          (lt_of_lt_of_le hx (Nat.pow_le_pow_right (by norm_num) (by omega)))
      have h56 : ¬ j - 8 < 56 := by omega
      simp [h8, hj, h56, hf, ge_iff_le]
  · simp [h8, ge_iff_le]

/-- C4 counterexample: with four hashes `[0, 0, 0, 1280]` and mask
`0xFFFF`, the third and fourth bit indices are `0` and `1280`, which lie in
*different* 256-bit windows (`0` and `5`): `local_index` is never reset, so
no window is reseeded after the first pair. -/
theorem bunching_not_rearmed_counterexample :
    bitIndices [0, 0, 0, 1280] 65535 = [0, 0, 0, 1280] ∧
      (1280 : ℕ) / 256 ≠ 0 / 256 := by
  constructor <;> decide

/-- C4 (amended): only the first two hashes are bunched into a common
256-bit-aligned window (hash 1 full-range, hash 2 windowed onto hash 1's
base); every later hash selects over the full array. -/
theorem bit_selector_first_pair_bunched (h1 h2 h3 h4 mask : ℕ)
    (hm : mask < 2 ^ 64) :
    bitIndices [h1, h2, h3, h4] mask =
      [h1 &&& mask,
       (h2 &&& LOCAL_MASK) + ((h1 &&& mask) &&& NOT_LOCAL_MASK),
       h3 &&& mask, h4 &&& mask] ∧
    ((h2 &&& LOCAL_MASK) + ((h1 &&& mask) &&& NOT_LOCAL_MASK)) / 256 =
      (h1 &&& mask) / 256 := by
  have hi1 : h1 &&& mask < 2 ^ 64 := lt_of_le_of_lt Nat.and_le_right hm
  constructor
  · rfl
  · rw [and_not_local_mask _ hi1]
    have hlt : h2 &&& LOCAL_MASK < 256 := by
      rw [LOCAL_MASK, Nat.shiftLeft_eq, one_mul, Nat.and_pow_two_sub_one_eq_mod]
      exact Nat.mod_lt _ (by norm_num)
    rw [Nat.add_mul_div_right _ _ (by norm_num : (0:ℕ) < 256),
      Nat.div_eq_of_lt hlt, zero_add]

theorem bit_selector_first_pair_bunched_witness :
    (65535 : ℕ) < 2 ^ 64 ∧
      (bitIndices [7, 300, 9, 1280] 65535 =
        [7 &&& 65535,
         (300 &&& LOCAL_MASK) + ((7 &&& 65535) &&& NOT_LOCAL_MASK),
         9 &&& 65535, 1280 &&& 65535] ∧
       ((300 &&& LOCAL_MASK) + ((7 &&& 65535) &&& NOT_LOCAL_MASK)) / 256 =
         (7 &&& 65535) / 256) :=
  ⟨by norm_num, bit_selector_first_pair_bunched 7 300 9 1280 65535 (by norm_num)⟩

lemma nbitsAux_spec :
    ∀ fuel x, 0 < x → x < 2 ^ fuel →
      0 < nbitsAux fuel x ∧ 2 ^ (nbitsAux fuel x - 1) ≤ x ∧ x < 2 ^ nbitsAux fuel x := by
  intro fuel
  induction fuel with
  | zero =>
    intro x hx hlt
    norm_num at hlt
    omega
  | succ fuel ih =>
    intro x hx hlt
    rw [nbitsAux, if_neg (by omega : ¬ x = 0)]
    by_cases h1 : x / 2 = 0
    · have hx1 : x = 1 := by omega
      subst hx1
      rw [h1, nbitsAux_zero]
      norm_num
    · have hpos : 0 < x / 2 := by omega
      have h2p : 2 ^ (fuel + 1) = 2 * 2 ^ fuel := by ring
      have hlt2 : x / 2 < 2 ^ fuel := by omega
      obtain ⟨hm0, hm1, hm2⟩ := ih (x / 2) hpos hlt2
      refine ⟨by omega, ?_, ?_⟩
      · have h2 : 2 ^ nbitsAux fuel (x / 2) = 2 * 2 ^ (nbitsAux fuel (x / 2) - 1) := by
          rw [← pow_succ']
          congr 1
          omega
        simp only [Nat.add_sub_cancel]
        omega
      · have h3 : 2 ^ (nbitsAux fuel (x / 2) + 1) = 2 * 2 ^ nbitsAux fuel (x / 2) := by
          ring
        omega

lemma nbits_le_64 {x : ℕ} (hx : x < 2 ^ 64) : nbits x ≤ 64 := by
  rcases Nat.eq_zero_or_pos x with rfl | hpos
  · rw [nbits, nbitsAux_zero]
    omega
  · obtain ⟨h0, h1, _⟩ := nbitsAux_spec 64 x hpos hx
    by_contra hc
    have : (2 : ℕ) ^ 64 ≤ 2 ^ (nbits x - 1) :=
      Nat.pow_le_pow_right (by norm_num) (by omega)
    rw [nbits] at *
    omega

lemma builder_size_bits_spec (size : ℕ) (h0 : 0 < size) (h64 : size < 2 ^ 64) :
    size ≤ 2 ^ builder_size_bits size ∧
      (256 ≤ size → 8 ≤ builder_size_bits size) := by
  obtain ⟨hm0, hm1, hm2⟩ := nbitsAux_spec 64 size h0 h64
  have hm64 : nbits size ≤ 64 := nbits_le_64 h64
  rw [nbits] at hm64
  have hsb : builder_size_bits size =
      if 2 ^ (nbitsAux 64 size - 1) < size then nbitsAux 64 size - 1 + 1
      else nbitsAux 64 size - 1 := by
    rw [builder_size_bits, leading_zeros, nbits]
    rw [show 64 - (64 - nbitsAux 64 size) - 1 = nbitsAux 64 size - 1 by omega,
      Nat.shiftLeft_eq, one_mul]
  have hle : size ≤ 2 ^ builder_size_bits size := by
    rw [hsb]
    split
    · rw [show nbitsAux 64 size - 1 + 1 = nbitsAux 64 size by omega]
      omega
    · omega
  refine ⟨hle, fun h256 => ?_⟩
  by_contra hc
  have : (2 : ℕ) ^ builder_size_bits size < 2 ^ 8 :=
    Nat.pow_lt_pow_right (by norm_num) (by omega)
  norm_num at this
  omega

lemma builder_new_spec (size hashes : ℕ) (h256 : 256 ≤ size) (h64 : size < 2 ^ 64)
    (b : Builder) (hb : Builder.new size hashes = some b) :
    ∃ k, 8 ≤ k ∧ k ≤ 63 ∧ b.size = 2 ^ k ∧ b.mask = 2 ^ k - 1 ∧ size ≤ 2 ^ k := by
  rw [Builder.new, if_neg (by omega : ¬ size = 0)] at hb
  by_cases hof : 64 ≤ builder_size_bits size
  · rw [if_pos hof] at hb
    exact absurd hb (by simp)
  · rw [if_neg hof] at hb
    obtain rfl : (⟨1 <<< builder_size_bits size, 1 <<< builder_size_bits size - 1,
        hashes⟩ : Builder) = b := Option.some_injective _ hb
    obtain ⟨hle, h8⟩ := builder_size_bits_spec size (by omega) h64
    exact ⟨builder_size_bits size, h8 h256, by omega,
      by simp [Nat.shiftLeft_eq, one_mul], by simp [Nat.shiftLeft_eq, one_mul],
      hle⟩

lemma new_base_ok (k idx : ℕ) (hk : k ≤ 63) (hidx : idx < 2 ^ k) :
    idx &&& NOT_LOCAL_MASK < 2 ^ k ∧ (idx &&& NOT_LOCAL_MASK) % 256 = 0 := by
  have hi64 : idx < 2 ^ 64 :=
    lt_of_lt_of_le hidx (Nat.pow_le_pow_right (by norm_num) (by omega))
  rw [and_not_local_mask _ hi64]
  exact ⟨lt_of_le_of_lt (Nat.div_mul_le_self _ _) hidx, Nat.mul_mod_left _ _⟩

lemma bitSelectorStep_spec (k : ℕ) (h8 : 8 ≤ k) (hk : k ≤ 63)
    (st : BitSelectorState)
    (hst : ∀ base, st.locality = some base → base < 2 ^ k ∧ base % 256 = 0)
    (h : ℕ) :
    (bitSelectorStep (2 ^ k - 1) st h).1 < 2 ^ k ∧
      ∀ base, (bitSelectorStep (2 ^ k - 1) st h).2.locality = some base →
        base < 2 ^ k ∧ base % 256 = 0 := by
  have hpos : (0 : ℕ) < 2 ^ k := pow_pos (by norm_num) _
  rcases hloc : st.locality with _ | base
  · have hidx : (h &&& (2 ^ k - 1)) + 0 < 2 ^ k := by
      have h1 : h &&& (2 ^ k - 1) ≤ 2 ^ k - 1 := Nat.and_le_right
      omega
    simp only [bitSelectorStep, hloc]
    split
    · exact ⟨hidx, by simp⟩
    · refine ⟨hidx, fun base2 hb2 => ?_⟩
      simp only [Option.some_inj] at hb2
      rw [← hb2]
      exact new_base_ok k _ hk hidx
  · obtain ⟨hblt, hbmod⟩ := hst base hloc
    have h2k : (2 : ℕ) ^ k % 256 = 0 := by
      apply Nat.mod_eq_zero_of_dvd
      exact (by norm_num : (256 : ℕ) = 2 ^ 8) ▸ pow_dvd_pow 2 h8
    have hl : h &&& LOCAL_MASK < 256 := by
      rw [LOCAL_MASK, Nat.shiftLeft_eq, one_mul, Nat.and_pow_two_sub_one_eq_mod]
      exact Nat.mod_lt _ (by norm_num)
    have hidx : (h &&& LOCAL_MASK) + base < 2 ^ k := by omega
    simp only [bitSelectorStep, hloc]
    split
    · exact ⟨hidx, by simp⟩
    · refine ⟨hidx, fun base2 hb2 => ?_⟩
      simp only [Option.some_inj] at hb2
      rw [← hb2]
      exact new_base_ok k _ hk hidx

lemma bitIndicesFrom_lt (k : ℕ) (h8 : 8 ≤ k) (hk : k ≤ 63) :
    ∀ (hs : List ℕ) (st : BitSelectorState),
      (∀ base, st.locality = some base → base < 2 ^ k ∧ base % 256 = 0) →
      ∀ idx ∈ bitIndicesFrom (2 ^ k - 1) st hs, idx < 2 ^ k := by
  intro hs
  induction hs with
  | nil =>
    intro st _ idx hidx
    simp [bitIndicesFrom] at hidx
  | cons h t ih =>
    intro st hst idx hidx
    obtain ⟨hlt, hinv⟩ := bitSelectorStep_spec k h8 hk st hst h
    rw [bitIndicesFrom] at hidx
    rcases List.mem_cons.mp hidx with rfl | hmem
    · exact hlt
    · exact ih _ hinv idx hmem

/-- C10: for any requested size in `[256, 2^64)`, when the builder
succeeds every bit index produced for any item is below the rounded
power-of-two size, and the addressed word of the freshly built `BitSet`
exists. -/
theorem bloom_indices_in_bounds (size hashes : ℕ) (b : Builder)
    (h256 : 256 ≤ size) (h64 : size < 2 ^ 64)
    (hb : Builder.new size hashes = some b) (hs : List ℕ) :
    ∀ idx ∈ bitIndices hs b.mask,
      idx < b.size ∧ idx / usize_bits < (BitSet.new b.size).bits.length := by
  obtain ⟨k, h8, h63, hsz, hmask, _⟩ := builder_new_spec size hashes h256 h64 b hb
  intro idx hidx
  rw [bitIndices, hmask] at hidx
  have hlt : idx < 2 ^ k :=
    bitIndicesFrom_lt k h8 h63 hs ⟨none, 0⟩ (by simp) idx hidx
  refine ⟨hsz ▸ hlt, ?_⟩
  rw [hsz, BitSet.new]
  simp only [List.length_replicate, usize_bits]
  omega

theorem bloom_indices_in_bounds_witness :
    256 ≤ 300 ∧ Builder.new 300 2 = some ⟨512, 511, 2⟩ ∧
      ∀ idx ∈ bitIndices [5, 1000] (⟨512, 511, 2⟩ : Builder).mask,
        idx < (⟨512, 511, 2⟩ : Builder).size ∧
          idx / usize_bits < (BitSet.new (⟨512, 511, 2⟩ : Builder).size).bits.length :=
  ⟨by norm_num, by decide,
   bloom_indices_in_bounds 300 2 _ (by norm_num) (by norm_num) (by decide) [5, 1000]⟩

/-! ### Bloom filter: no false negatives (C7) -/

lemma word_test (w b : ℕ) : (w &&& (1 <<< b) ≠ 0) ↔ w.testBit b = true := by
  rw [Nat.shiftLeft_eq, one_mul, Nat.and_two_pow]
  cases h : w.testBit b <;> simp [h]

lemma getD_set_eq (l : List ℕ) (i : ℕ) (a : ℕ) (h : i < l.length) :
    (l.set i a).getD i 0 = a := by
  rw [List.getD_eq_getElem?_getD, List.getElem?_set, if_pos rfl, if_pos h]
  rfl

lemma getD_set_ne (l : List ℕ) {i j : ℕ} (a : ℕ) (h : i ≠ j) :
    (l.set i a).getD j 0 = l.getD j 0 := by
  rw [List.getD_eq_getElem?_getD, List.getElem?_set, if_neg h,
    ← List.getD_eq_getElem?_getD]

lemma insert_contains_self {bs bs' : BitSet} {i : ℕ} (h : bs.insert i = some bs') :
    bs'.contains i = some true := by
  by_cases hb : i / usize_bits < bs.bits.length
  · simp only [BitSet.insert, if_pos hb, Option.some_inj] at h
    simp only [BitSet.contains, ← h, List.length_set, if_pos hb, Option.some_inj]
    rw [decide_eq_true_eq, getD_set_eq _ _ _ hb, word_test, Nat.shiftLeft_eq, one_mul,
      Nat.testBit_or, Nat.testBit_two_pow]
    simp
  · simp [BitSet.insert, hb] at h

lemma contains_mono {bs bs' : BitSet} {i j : ℕ}
    (hc : bs.contains i = some true) (h : bs.insert j = some bs') :
    bs'.contains i = some true := by
  by_cases hbj : j / usize_bits < bs.bits.length
  · simp only [BitSet.insert, if_pos hbj, Option.some_inj] at h
    by_cases hbi : i / usize_bits < bs.bits.length
    · simp only [BitSet.contains, if_pos hbi, Option.some_inj] at hc
      rw [decide_eq_true_eq, word_test] at hc
      simp only [BitSet.contains, ← h, List.length_set, if_pos hbi, Option.some_inj]
      rw [decide_eq_true_eq, word_test]
      by_cases hblk : j / usize_bits = i / usize_bits
      · rw [hblk, getD_set_eq _ _ _ hbi, Nat.testBit_or, hc, Bool.true_or]
      · rw [getD_set_ne _ _ hblk]
        exact hc
    · simp [BitSet.contains, hbi] at hc
  · simp [BitSet.insert, hbj] at h

lemma insertAll_mono :
    ∀ (l : List ℕ) (bs bs' : BitSet) (i : ℕ),
      bs.contains i = some true → insertAll bs l = some bs' →
      bs'.contains i = some true := by
  intro l
  induction l with
  | nil =>
    intro bs bs' i hc h
    rw [insertAll, Option.some_inj] at h
    rwa [← h]
  | cons j t ih =>
    intro bs bs' i hc h
    rw [insertAll] at h
    cases hj : bs.insert j with
    | none =>
      rw [hj] at h
      exact absurd h (by simp)
    | some bs2 =>
      rw [hj] at h
      exact ih bs2 bs' i (contains_mono hc hj) h

lemma insertAll_sets :
    ∀ (l : List ℕ) (bs bs' : BitSet),
      insertAll bs l = some bs' → ∀ i ∈ l, bs'.contains i = some true := by
  intro l
  induction l with
  | nil =>
    intro bs bs' _ i hi
    simp at hi
  | cons j t ih =>
    intro bs bs' h i hi
    rw [insertAll] at h
    cases hj : bs.insert j with
    | none =>
      rw [hj] at h
      exact absurd h (by simp)
    | some bs2 =>
      rw [hj] at h
      rcases List.mem_cons.mp hi with rfl | hmem
      · exact insertAll_mono t bs2 bs' i (insert_contains_self hj) h
      · exact ih bs2 bs' h i hmem

lemma containsAll_of_all :
    ∀ (l : List ℕ) (bs : BitSet),
      (∀ i ∈ l, bs.contains i = some true) → containsAll bs l = some true := by
  intro l
  induction l with
  | nil =>
    intro bs _
    rfl
  | cons j t ih =>
    intro bs h
    rw [containsAll, h j (List.mem_cons_self _ _)]
    exact ih bs (fun i hi => h i (List.mem_cons_of_mem _ hi))

lemma put_spec {f f' : BloomFilter} {hv : List ℕ} (h : f.put hv = some f') :
    f'.mask = f.mask ∧ insertAll f.bits (bitIndices hv f.mask) = some f'.bits := by
  rw [BloomFilter.put] at h
  cases hins : insertAll f.bits (bitIndices hv f.mask) with
  | none =>
    rw [hins] at h
    exact absurd h (by simp)
  | some bs2 =>
    rw [hins] at h
    simp only [Option.map_some', Option.some_inj] at h
    rw [← h]
    exact ⟨rfl, rfl⟩

lemma putAll_mask :
    ∀ (ls : List (List ℕ)) (f f' : BloomFilter),
      putAll f ls = some f' → f'.mask = f.mask := by
  intro ls
  induction ls with
  | nil =>
    intro f f' h
    rw [putAll, Option.some_inj] at h
    rw [← h]
  | cons hs t ih =>
    intro f f' h
    rw [putAll] at h
    cases hp : f.put hs with
    | none =>
      rw [hp] at h
      exact absurd h (by simp)
    | some f2 =>
      rw [hp] at h
      rw [ih f2 f' h, (put_spec hp).1]

lemma putAll_contains :
    ∀ (ls : List (List ℕ)) (f f' : BloomFilter) (i : ℕ),
      f.bits.contains i = some true → putAll f ls = some f' →
      f'.bits.contains i = some true := by
  intro ls
  induction ls with
  | nil =>
    intro f f' i hc h
    rw [putAll, Option.some_inj] at h
    rwa [← h]
  | cons hs t ih =>
    intro f f' i hc h
    rw [putAll] at h
    cases hp : f.put hs with
    | none =>
      rw [hp] at h
      exact absurd h (by simp)
    | some f2 =>
      rw [hp] at h
      exact ih f2 f' i (insertAll_mono _ _ _ i hc (put_spec hp).2) h

/-- C7: after a successful `put(v)` (and any number of further `put`s of
other values), `maybe_present(v)` returns `true` — the filter never
produces a false negative. -/
theorem bloom_no_false_negative (f f1 f2 : BloomFilter) (hv : List ℕ)
    (others : List (List ℕ)) (hput : f.put hv = some f1)
    (hrest : putAll f1 others = some f2) :
    f2.maybe_present hv = some true := by
  obtain ⟨hm1, hins⟩ := put_spec hput
  have hall : ∀ i ∈ bitIndices hv f.mask, f2.bits.contains i = some true := by
    intro i hi
    exact putAll_contains others f1 f2 i (insertAll_sets _ _ _ hins i hi) hrest
  have hm2 : f2.mask = f.mask := by rw [putAll_mask others f1 f2 hrest, hm1]
  rw [BloomFilter.maybe_present, hm2]
  exact containsAll_of_all _ _ hall

theorem bloom_no_false_negative_witness :
    (⟨⟨[0, 0, 0, 0]⟩, 255⟩ : BloomFilter).put [5, 77] =
        some ⟨⟨[32, 8192, 0, 0]⟩, 255⟩ ∧
      putAll ⟨⟨[32, 8192, 0, 0]⟩, 255⟩ [[100]] =
        some ⟨⟨[32, 68719484928, 0, 0]⟩, 255⟩ ∧
      BloomFilter.maybe_present ⟨⟨[32, 68719484928, 0, 0]⟩, 255⟩ [5, 77] = some true :=
  ⟨by decide, by decide,
   bloom_no_false_negative ⟨⟨[0, 0, 0, 0]⟩, 255⟩ ⟨⟨[32, 8192, 0, 0]⟩, 255⟩
     ⟨⟨[32, 68719484928, 0, 0]⟩, 255⟩ [5, 77] [[100]] (by decide) (by decide)⟩

/-! ### Cross-OR (C8) -/

/-- C8: with equal lengths, one `cross_or` makes both word vectors the
element-wise OR of the originals (so the two arrays are equal), and a
second `cross_or` on the result changes nothing; the Bloom-filter wrapper
with equal masks delegates to exactly this. -/
theorem cross_or_correct (a b : BitSet) (hlen : a.bits.length = b.bits.length) :
    BitSet.cross_or a b =
      (⟨List.zipWith (· ||| ·) a.bits b.bits⟩, ⟨List.zipWith (· ||| ·) a.bits b.bits⟩) ∧
    (∀ j, j < a.bits.length →
      (BitSet.cross_or a b).1.bits.getD j 0 = a.bits.getD j 0 ||| b.bits.getD j 0) ∧
    BitSet.cross_or (BitSet.cross_or a b).1 (BitSet.cross_or a b).2 =
      BitSet.cross_or a b ∧
    ∀ (f g : BloomFilter), f.bits = a → g.bits = b → f.mask = g.mask →
      BloomFilter.cross_or f g =
        some (⟨(BitSet.cross_or a b).1, f.mask⟩, ⟨(BitSet.cross_or a b).2, g.mask⟩) := by
  have hdra : a.bits.drop b.bits.length = [] := by rw [← hlen, List.drop_length]
  have hdrb : b.bits.drop a.bits.length = [] := by rw [hlen, List.drop_length]
  have hco : BitSet.cross_or a b =
      (⟨List.zipWith (· ||| ·) a.bits b.bits⟩,
       ⟨List.zipWith (· ||| ·) a.bits b.bits⟩) := by
    rw [BitSet.cross_or, hdra, hdrb, List.append_nil]
  refine ⟨hco, ?_, ?_, ?_⟩
  · intro j hj
    rw [hco]
    have hjz : j < (List.zipWith (· ||| ·) a.bits b.bits).length := by
      rw [List.length_zipWith]
      omega
    rw [List.getD_eq_getElem _ _ hjz, List.getElem_zipWith,
      List.getD_eq_getElem _ _ hj,
      List.getD_eq_getElem _ _ (show j < b.bits.length by omega)]
  · rw [hco]
    have hzz : List.zipWith (· ||| ·) (List.zipWith (· ||| ·) a.bits b.bits)
        (List.zipWith (· ||| ·) a.bits b.bits) =
        List.zipWith (· ||| ·) a.bits b.bits := by
      rw [List.zipWith_same]
      conv_rhs => rw [← List.map_id (List.zipWith (· ||| ·) a.bits b.bits)]
      apply List.map_congr_left
      intro x _
      exact Nat.or_self x
    rw [BitSet.cross_or]
    simp only [List.drop_length, List.append_nil, hzz]
  · intro f g hf hg hmasks
    rw [BloomFilter.cross_or, if_pos hmasks, hf, hg]

theorem cross_or_correct_witness :
    BitSet.cross_or ⟨[1, 2]⟩ ⟨[4, 2]⟩ = (⟨[5, 2]⟩, ⟨[5, 2]⟩) :=
  (cross_or_correct ⟨[1, 2]⟩ ⟨[4, 2]⟩ rfl).1.trans (by decide)

/-! ## bloomfilter/mod.rs : the three phase orchestrators' range
assignments -/

def N_TASKS : ℕ := 1 <<< 16

/-- Task `i`'s codeword-index range in `bloom_t1` over an input half of
`n` elements: `total_work = 1 << n`, `per_task = total_work / N_TASKS`,
`start_idx = per_task * i`; the last task absorbs the remainder. -/
def bloom_t1_range (n i : ℕ) : ℕ × ℕ :=
  let total_work := 1 <<< n
  let per_task := total_work / N_TASKS
  let start_idx := per_task * i
  (start_idx, if i = N_TASKS - 1 then total_work else start_idx + per_task)

/-- Task `task_idx`'s range in `build_t2` (same shape; the source writes
the product `task_idx * per_task`). -/
def build_t2_range (n task_idx : ℕ) : ℕ × ℕ :=
  let total_work := 1 <<< n
  let per_task := total_work / N_TASKS
  let start_idx := task_idx * per_task
  (start_idx, if task_idx = N_TASKS - 1 then total_work else start_idx + per_task)

/-- Task `task`'s range in `final_sieve`: fixed `start_idx = task * N_TASKS`,
`end_idx = start_idx + N_TASKS`, independent of the input size. -/
def final_sieve_range (task : ℕ) : ℕ × ℕ :=
  (task * N_TASKS, task * N_TASKS + N_TASKS)

lemma N_TASKS_eq : N_TASKS = 2 ^ 16 := by decide

/-- Generic per-task split: `[0, total)` is exactly partitioned by the
`tasks` ranges `[per*i, per*i + per)` (last absorbing the remainder). -/
lemma task_partition (total tasks : ℕ) (ht : 0 < tasks) (x : ℕ) :
    x < total ↔
      ∃! i, i < tasks ∧ total / tasks * i ≤ x ∧
        x < (if i = tasks - 1 then total else total / tasks * i + total / tasks) := by
  have hpt : total / tasks * tasks ≤ total := Nat.div_mul_le_self _ _
  have key : ∀ i j, i < j → j < tasks → total / tasks * i ≤ x →
      x < (if i = tasks - 1 then total else total / tasks * i + total / tasks) →
      total / tasks * j ≤ x → False := by
    intro i j hij hj _ hi2 hj1
    have hine : i ≠ tasks - 1 := by omega
    rw [if_neg hine] at hi2
    have h3 : total / tasks * (i + 1) ≤ total / tasks * j :=
      Nat.mul_le_mul_left _ (by omega)
    have h4 : total / tasks * (i + 1) = total / tasks * i + total / tasks := by ring
    omega
  constructor
  · intro hx
    by_cases hsmall : x < total / tasks * (tasks - 1)
    · have hp0 : 0 < total / tasks := by
        rcases Nat.eq_zero_or_pos (total / tasks) with h | h
        · rw [h] at hsmall
          simp at hsmall
        · exact h
      have hdm := Nat.div_add_mod x (total / tasks)
      have hml : x % (total / tasks) < total / tasks := Nat.mod_lt _ hp0
      have hidx : x / (total / tasks) < tasks - 1 := by
        rw [Nat.div_lt_iff_lt_mul hp0, mul_comm]
        exact hsmall
      refine ⟨x / (total / tasks), ⟨by omega, by omega, ?_⟩, ?_⟩
      · rw [if_neg (by omega : ¬ x / (total / tasks) = tasks - 1)]
        omega
      · rintro j ⟨hj, hj1, hj2⟩
        rcases lt_trichotomy j (x / (total / tasks)) with h | h | h
        · exact absurd (key j (x / (total / tasks)) h (by omega) hj1 hj2 (by omega))
            (fun hf => hf)
        · exact h
        · exact absurd
            (key (x / (total / tasks)) j h hj (by omega)
              (by rw [if_neg (by omega : ¬ x / (total / tasks) = tasks - 1)]; omega)
              hj1)
            (fun hf => hf)
    · refine ⟨tasks - 1, ⟨by omega, by omega, by rw [if_pos rfl]; exact hx⟩, ?_⟩
      rintro j ⟨hj, hj1, hj2⟩
      rcases lt_trichotomy j (tasks - 1) with h | h | h
      · exact absurd (key j (tasks - 1) h (by omega) hj1 hj2 (by omega)) (fun hf => hf)
      · exact h
      · omega
  · rintro ⟨i, ⟨hi, _, hi2⟩, _⟩
    by_cases hit : i = tasks - 1
    · rw [if_pos hit] at hi2
      exact hi2
    · rw [if_neg hit] at hi2
      have h1 : total / tasks * (i + 1) ≤ total / tasks * tasks :=
        Nat.mul_le_mul_left _ (by omega)
      have h2 : total / tasks * (i + 1) = total / tasks * i + total / tasks := by ring
      omega

lemma bloom_t1_range_eq (n i : ℕ) :
    bloom_t1_range n i =
      (2 ^ n / 2 ^ 16 * i,
       if i = 2 ^ 16 - 1 then 2 ^ n else 2 ^ n / 2 ^ 16 * i + 2 ^ n / 2 ^ 16) := by
  simp only [bloom_t1_range, N_TASKS_eq, Nat.shiftLeft_eq, one_mul]

/-- C5 counterexample: for an input half of `n = 16` elements, the claimed
per-task length is `W/T = 2^16/2^16 = 1`, but `final_sieve` gives task 1
the range `[65536, 131072)` — of length `2^16` and entirely outside
`[0, 2^16)` — so the three orchestrators do not share the claimed split. -/
theorem final_sieve_range_counterexample :
    (final_sieve_range 1).1 = 65536 ∧ (final_sieve_range 1).2 = 131072 ∧
      ¬ (final_sieve_range 1).1 < 2 ^ 16 ∧
      (final_sieve_range 1).2 - (final_sieve_range 1).1 ≠ 2 ^ 16 / N_TASKS := by
  exact ⟨by decide, by decide, by decide, by decide⟩

/-- C5 (amended): `bloom_t1` and `build_t2` split `[0, 2^n)` into
`N_TASKS` pairwise-disjoint ranges covering it exactly, each of length
`W/T` except the last, which absorbs the remainder; `final_sieve` instead
uses the fixed ranges `[task*2^16, (task+1)*2^16)`, which partition
`[0, 2^32)` and agree with the claimed split exactly when `n = 32`. -/
theorem task_ranges_partition (n : ℕ) (hn : n ≤ 63) :
    (∀ x, x < 2 ^ n ↔ ∃! i, i < N_TASKS ∧ (bloom_t1_range n i).1 ≤ x ∧
        x < (bloom_t1_range n i).2) ∧
    (∀ i, build_t2_range n i = bloom_t1_range n i) ∧
    (∀ i, i < N_TASKS - 1 → (bloom_t1_range n i).2 - (bloom_t1_range n i).1 =
        2 ^ n / N_TASKS) ∧
    ((bloom_t1_range n (N_TASKS - 1)).2 = 2 ^ n) ∧
    (∀ x, x < 2 ^ 32 ↔ ∃! i, i < N_TASKS ∧ (final_sieve_range i).1 ≤ x ∧
        x < (final_sieve_range i).2) ∧
    (n = 32 → ∀ i, final_sieve_range i = bloom_t1_range n i) := by
  refine ⟨?_, ?_, ?_, ?_, ?_, ?_⟩
  · intro x
    simp only [bloom_t1_range_eq, N_TASKS_eq]
    exact task_partition (2 ^ n) (2 ^ 16) (by norm_num) x
  · intro i
    simp only [build_t2_range, bloom_t1_range]
    rw [mul_comm]
  · intro i hi
    rw [N_TASKS_eq] at hi
    rw [N_TASKS_eq, bloom_t1_range_eq]
    dsimp only
    rw [if_neg (by omega : ¬ i = 2 ^ 16 - 1), Nat.add_sub_cancel_left]
  · rw [N_TASKS_eq, bloom_t1_range_eq]
    dsimp only
    rw [if_pos rfl]
  · intro x
    rw [show (2 : ℕ) ^ 32 = 2 ^ 32 from rfl]
    have heq : ∀ i : ℕ,
        (i < N_TASKS ∧ (final_sieve_range i).1 ≤ x ∧ x < (final_sieve_range i).2) ↔
        (i < 2 ^ 16 ∧ 2 ^ 32 / 2 ^ 16 * i ≤ x ∧
          x < (if i = 2 ^ 16 - 1 then 2 ^ 32
            else 2 ^ 32 / 2 ^ 16 * i + 2 ^ 32 / 2 ^ 16)) := by
      intro i
      simp only [final_sieve_range, N_TASKS_eq]
      have hd : (2 : ℕ) ^ 32 / 2 ^ 16 = 2 ^ 16 := by norm_num
      rw [hd, mul_comm i (2 ^ 16)]
      by_cases hit : i = 2 ^ 16 - 1
      · rw [if_pos hit, hit]
        norm_num
      · rw [if_neg hit]
    rw [existsUnique_congr heq]
    exact task_partition (2 ^ 32) (2 ^ 16) (by norm_num) x
  · rintro rfl i
    rw [bloom_t1_range_eq]
    simp only [final_sieve_range, N_TASKS_eq]
    have hd : (2 : ℕ) ^ 32 / 2 ^ 16 = 2 ^ 16 := by norm_num
    rw [hd, mul_comm i (2 ^ 16)]
    by_cases hit : i = 2 ^ 16 - 1
    · rw [if_pos hit, hit]
      norm_num
    · rw [if_neg hit]

theorem task_ranges_partition_witness :
    (32 : ℕ) ≤ 63 ∧
      ∃! i, i < N_TASKS ∧ (bloom_t1_range 32 i).1 ≤ 12345 ∧
        12345 < (bloom_t1_range 32 i).2 :=
  ⟨by norm_num, ((task_ranges_partition 32 (by norm_num)).1 12345).mp (by norm_num)⟩

/-! ## magic_numbers.rs : the primality-check adapter -/

/-- `MIN_N = 2^512` (magic_numbers.rs). -/
def MIN_N : ℕ := 2 ^ 512

/-- `mask_to_big_int`: for `i = 0..32`, push `array[i]` whenever bit `i`
of the `u32` mask is set (callers pass 32-element slices, for which `getD`
coincides with the in-bounds `array[i]`). -/
def mask_to_big_int (accumulator : List ℕ) (mask : ℕ) (array : List ℕ) : List ℕ :=
  accumulator ++ (List.range 32).filterMap
    (fun i => if (mask >>> i) &&& 1 = 1 then some (array.getD i 0) else none)

/-- `get_vals_to_multiply`: `{2}`, then the selected `t1` values, then the
selected `t2` values. -/
def get_vals_to_multiply (t1 t2 : List ℕ) (t1_mask t2_mask : ℕ) : List ℕ :=
  mask_to_big_int (mask_to_big_int [2] t1_mask t1) t2_mask t2

structure Pseudoprime where
  pseudoprime : ℕ
  factors : List ℕ
deriving DecidableEq

/-- `check_prime`, parametric in the external bignum primality test (rug's
`is_probably_prime(15)` answering `Probably` or `Yes`); bignums are `ℕ`. -/
def check_prime (is_probably_prime : ℕ → Bool) (min_n : ℕ) (t1 t2 : List ℕ)
    (t1_mask t2_mask : ℕ) : Option Pseudoprime :=
  let values_to_multiply := get_vals_to_multiply t1 t2 t1_mask t2_mask
  let product := values_to_multiply.prod
  let n_result := product + 1
  if min_n < n_result then
    if is_probably_prime n_result then some ⟨n_result, values_to_multiply⟩
    else none
  else none

/-- Spec-side, from the Result paragraph of the specification: the elements
of `xs` at the set bit positions of `mask`. -/
def selectedByMask (mask : ℕ) (xs : List ℕ) : List ℕ :=
  (List.range 32).filterMap (fun i => if mask.testBit i then xs[i]? else none)

lemma filterMap_congr' {α β : Type} (f g : α → Option β) :
    ∀ l : List α, (∀ a ∈ l, f a = g a) → l.filterMap f = l.filterMap g := by
  intro l
  induction l with
  | nil => intro _; rfl
  | cons a t ih =>
    intro h
    rw [List.filterMap_cons, List.filterMap_cons, h a (List.mem_cons_self _ _),
      ih (fun b hb => h b (List.mem_cons_of_mem _ hb))]

lemma mask_bit_cond (mask i : ℕ) : ((mask >>> i) &&& 1 = 1) ↔ mask.testBit i = true := by
  rw [show (1 : ℕ) = 2 ^ 1 - 1 by norm_num, Nat.and_pow_two_sub_one_eq_mod,
    Nat.shiftRight_eq_div_pow, Nat.testBit_to_div_mod]
  simp

lemma mask_to_big_int_eq (acc : List ℕ) (mask : ℕ) (array : List ℕ)
    (hlen : array.length = 32) :
    mask_to_big_int acc mask array = acc ++ selectedByMask mask array := by
  rw [mask_to_big_int, selectedByMask]
  congr 1
  apply filterMap_congr'
  intro i hi
  have hilt : i < array.length := by
    rw [hlen]
    exact List.mem_range.mp hi
  by_cases hb : mask.testBit i = true
  · rw [if_pos ((mask_bit_cond mask i).mpr hb), if_pos hb,
      List.getElem?_eq_getElem hilt, List.getD_eq_getElem _ _ hilt]
  · rw [if_neg (fun hc => hb ((mask_bit_cond mask i).mp hc)), if_neg hb]

/-- C9: a `Some` result of `check_prime` carries exactly
`2 :: (selected t1) ++ (selected t2)` as factors, its candidate minus one
is the product of those factors, and the candidate exceeds `min_n`; and a
candidate `≤ min_n` always yields `None`. -/
theorem check_prime_spec (is_probably_prime : ℕ → Bool) (min_n : ℕ)
    (t1 t2 : List ℕ) (t1_mask t2_mask : ℕ)
    (h1 : t1.length = 32) (h2 : t2.length = 32) :
    (∀ p, check_prime is_probably_prime min_n t1 t2 t1_mask t2_mask = some p →
      p.factors = 2 :: (selectedByMask t1_mask t1 ++ selectedByMask t2_mask t2) ∧
      p.pseudoprime - 1 = p.factors.prod ∧ min_n < p.pseudoprime) ∧
    ((get_vals_to_multiply t1 t2 t1_mask t2_mask).prod + 1 ≤ min_n →
      check_prime is_probably_prime min_n t1 t2 t1_mask t2_mask = none) := by
  have hvals : get_vals_to_multiply t1 t2 t1_mask t2_mask =
      2 :: (selectedByMask t1_mask t1 ++ selectedByMask t2_mask t2) := by
    rw [get_vals_to_multiply, mask_to_big_int_eq _ _ _ h1, mask_to_big_int_eq _ _ _ h2,
      List.append_assoc, List.singleton_append]
  constructor
  · intro p hp
    simp only [check_prime] at hp
    by_cases hmin : min_n < (get_vals_to_multiply t1 t2 t1_mask t2_mask).prod + 1
    · rw [if_pos hmin] at hp
      by_cases hpp : is_probably_prime
          ((get_vals_to_multiply t1 t2 t1_mask t2_mask).prod + 1) = true
      · rw [if_pos hpp, Option.some_inj] at hp
        rw [← hp]
        exact ⟨hvals, by simp, hmin⟩
      · rw [if_neg hpp] at hp
        exact absurd hp (by simp)
    · rw [if_neg hmin] at hp
      exact absurd hp (by simp)
  · intro hle
    simp only [check_prime]
    rw [if_neg (by omega)]

theorem check_prime_spec_witness :
    (List.replicate 32 3).length = 32 ∧
      check_prime (fun _ => true) 0 (List.replicate 32 3) (List.replicate 32 3) 5 1 =
        some ⟨55, [2, 3, 3, 3]⟩ ∧
      ∀ p, check_prime (fun _ => true) 0 (List.replicate 32 3)
            (List.replicate 32 3) 5 1 = some p →
        p.factors = 2 :: (selectedByMask 5 (List.replicate 32 3) ++
          selectedByMask 1 (List.replicate 32 3)) ∧
        p.pseudoprime - 1 = p.factors.prod ∧ 0 < p.pseudoprime :=
  ⟨by decide, by decide,
   (check_prime_spec (fun _ => true) 0 (List.replicate 32 3) (List.replicate 32 3)
     5 1 (by decide) (by decide)).1⟩

end FastPseudoprimes
